import Mathlib

/-!
# Verification of `split-finances.py`

A shallow embedding of `src/split_money/split-finances.py` and proofs about it.

Modelling conventions:
* Python `float` amounts are modelled by exact rationals (`ℚ`).
* A pandas `NaN` cell is modelled by `Option.none`.  A `Payer` cell that is
  `NaN` flows into the balance dictionary as the `NaN` object itself
  (`payer = [row['Payer']]`), so balance keys are `Option String`, with
  `none` standing for that `NaN` key and `some s` for the person named `s`.
* Python's insertion-ordered `dict` (and `defaultdict(float)`) is modelled by
  an association list `List (Person × ℚ)`; updates touch the first entry with
  the given key, insertions append at the end, exactly as `dict` iteration
  order behaves.
* The Python `set` of people, iterated after `list(people)`, is modelled by a
  duplicate-free list in first-seen order (a deterministic representative of
  the unordered set; no claim below depends on the order).
* A `ZeroDivisionError` aborting the run is modelled by returning `none`.
-/

/-- A balance-dictionary key: `some s` is the person named `s`; `none` models
the pandas `NaN` object that a missing `Payer` cell feeds into the dict. -/
abbrev Person := Option String

/-- The balance dictionary `balances`, as an insertion-ordered association
list (Python 3.7+ `dict` semantics). -/
abbrev Balances := List (Person × ℚ)

/-- A settlement instruction `(debtor, creditor, amount)`, as appended to
`settlements` in `print_settlement_plan`. -/
abbrev Settlement := Person × Person × ℚ

/-- Dictionary read with `defaultdict(float)` semantics: the value at the
first entry with key `k`, or `0` if `k` is absent. -/
def getBal (b : Balances) (k : Person) : ℚ :=
  match b with
  | [] => 0
  | (k', v) :: t => if k' = k then v else getBal t k

/-- `balances[k] += d` on a `defaultdict(float)`: update the first entry with
key `k`, or append `(k, d)` (default `0` plus `d`) if `k` is absent. -/
def addBal (b : Balances) (k : Person) (d : ℚ) : Balances :=
  match b with
  | [] => [(k, d)]
  | (k', v) :: t => if k' = k then (k', v + d) :: t else (k', v) :: addBal t k d

/-- `balances[k] = v`: overwrite the first entry with key `k`, or append. -/
def setBal (b : Balances) (k : Person) (v : ℚ) : Balances :=
  match b with
  | [] => [(k, v)]
  | (k', v') :: t => if k' = k then (k', v) :: t else (k', v') :: setBal t k v

/-- `sum(balances.values())`. -/
def sumValues (b : Balances) : ℚ :=
  (b.map Prod.snd).sum

/-- One CSV row, after `pd.read_csv`: `Payer` and `Involved` cells may be
`NaN` (modelled `none`); `Amount` is the parsed number, as an exact rational. -/
structure Row where
  Payer : Option String
  Amount : ℚ
  Involved : Option String
deriving DecidableEq

/-- Python `str.split(", ")` over the characters: cut at each leftmost
non-overlapping occurrence of `", "`; splitting the empty string yields
`[""]`.  (Structurally recursive so that it evaluates in the kernel.) -/
def splitCommaSpace : List Char → List Char → List String
  | [], acc => [String.mk acc.reverse]
  | ',' :: ' ' :: rest, acc => String.mk acc.reverse :: splitCommaSpace rest []
  | c :: rest, acc => splitCommaSpace rest (c :: acc)

/-- `str(row['Involved']).split(", ")`. -/
def splitInvolved (s : String) : List String :=
  splitCommaSpace s.data []

/-- Python `str.lower()` on one character, for the ASCII range that matters
here. -/
def lowerChar (c : Char) : Char :=
  if 'A' ≤ c ∧ c ≤ 'Z' then Char.ofNat (c.toNat + 32) else c

/-- Python `str.lower()`. -/
def pyLower (s : String) : String :=
  String.mk (s.data.map lowerChar)

/-- Models pandas' default NA handling in `pd.read_csv`: an empty cell (the
empty string) is read as `NaN`, i.e. `none`; any other text is kept. -/
def pdCell (s : String) : Option String :=
  if s = "" then none else some s

/-- `people.add(p)` on the person set, as a first-seen-order list. -/
def addPerson (ps : List String) (p : String) : List String :=
  if p ∈ ps then ps else ps ++ [p]

/-- One iteration of the pre-pass loop: `people.update(involved)` when the
`Involved` cell is not `NaN`, then `people.add(payer)` when the `Payer` cell
is not `NaN` (lines 40–45 of the source). -/
def rowPeople (ps : List String) (r : Row) : List String :=
  let ps1 := match r.Involved with
    | none => ps
    | some s => (splitInvolved s).foldl addPerson ps
  match r.Payer with
  | none => ps1
  | some p => addPerson ps1 p

/-- The person set after the pre-pass scan, before the `"Cash"` removal. -/
def peopleRaw (rows : List Row) : List String :=
  rows.foldl rowPeople []

/-- The person registry `people`: the pre-pass union with the exact string
`"Cash"` removed (lines 47–52 of the source). -/
def peopleOf (rows : List Row) : List String :=
  (peopleRaw rows).filter (fun p => decide (p ≠ "Cash"))

/-- The paying set (lines 56–60): if `str(row['Payer']).lower() == 'cash'`
the whole registry pays, otherwise the single raw `Payer` cell does.  For a
`NaN` payer, `str(nan) = "nan" ≠ "cash"`, so the singleton holds the `NaN`
key itself. -/
def payingSet (people : List String) (r : Row) : List Person :=
  match r.Payer with
  | some p => if pyLower p = "cash" then people.map some else [some p]
  | none => [none]

/-- The benefiting set (lines 62–65): the split `Involved` cell when it is
not `NaN`, otherwise the whole registry. -/
def benefitingSet (people : List String) (r : Row) : List String :=
  match r.Involved with
  | none => people
  | some s => splitInvolved s

/-- Lines 70–73: subtract `split_used = amount / len(involved)` from every
benefiting person's balance. -/
def benefitPhase (people : List String) (r : Row) (b : Balances) : Balances :=
  let involved := benefitingSet people r
  involved.foldl (fun acc q => addBal acc (some q) (-(r.Amount / involved.length))) b

/-- Lines 75–78: add `split_paid = amount / len(payer)` to every paying
person's balance. -/
def payPhase (people : List String) (r : Row) (b : Balances) : Balances :=
  let payer := payingSet people r
  payer.foldl (fun acc q => addBal acc q (r.Amount / payer.length)) b

/-- One iteration of the transaction loop (lines 55–78).  An empty benefiting
or paying set makes the division raise `ZeroDivisionError`, aborting the run
(`none`); otherwise both phases are applied. -/
def processRow (people : List String) (b : Balances) (r : Row) : Option Balances :=
  if (benefitingSet people r).length = 0 then none
  else
    let b1 := benefitPhase people r b
    if (payingSet people r).length = 0 then none
    else some (payPhase people r b1)

/-- The whole ledger pass of `calculate_settlements`: the pre-pass registry,
then the transaction loop over an initially empty `defaultdict(float)`. -/
def ledger (rows : List Row) : Option Balances :=
  rows.foldlM (processRow (peopleOf rows)) []

/-- Lines 92–97, generalised over the two hardcoded names: if both `src` and
`tgt` are keys of `balances`, add `balances[src]` to `balances[tgt]` and set
`balances[src] = 0`. -/
def mergeBalance (b : Balances) (src tgt : String) : Balances :=
  if some src ∈ b.map Prod.fst ∧ some tgt ∈ b.map Prod.fst then
    setBal (addBal b (some tgt) (getBal b (some src))) (some src) 0
  else b

/-- The hardcoded merge post-step of `calculate_settlements`: transfer all of
`'Suruthy'`'s balance to `'Arabi'`. -/
def mergeStep (b : Balances) : Balances :=
  mergeBalance b "Suruthy" "Arabi"

/-- Line 110: `creditors = {p: bal for p, bal in balances.items() if bal > 0}`,
an insertion-ordered dict comprehension. -/
def creditors (b : Balances) : Balances :=
  b.filter (fun e => decide (0 < e.2))

/-- Line 111: `debtors = {p: -bal for p, bal in balances.items() if bal < 0}`. -/
def debtors (b : Balances) : Balances :=
  (b.filter (fun e => decide (e.2 < 0))).map (fun e => (e.1, -e.2))

/-- The number of entries with a non-zero value (used as part of the
termination measure of the greedy loop). -/
def countNZ (l : Balances) : Nat :=
  (l.filter (fun e => decide (e.2 ≠ 0))).length

theorem countNZ_cons_zero (k : Person) {v : ℚ} (l : Balances) (h : v = 0) :
    countNZ ((k, v) :: l) = countNZ l := by
  simp [countNZ, List.filter_cons, h]

theorem countNZ_cons_ne (k : Person) {v : ℚ} (l : Balances) (h : v ≠ 0) :
    countNZ ((k, v) :: l) = countNZ l + 1 := by
  simp [countNZ, List.filter_cons, h]

theorem countNZ_cons_le (k : Person) (v : ℚ) (l : Balances) :
    countNZ ((k, v) :: l) ≤ 1 + countNZ l := by
  rcases eq_or_ne v 0 with h | h
  · rw [countNZ_cons_zero k l h]; omega
  · rw [countNZ_cons_ne k l h]; omega

/-- The greedy `while creditors and debtors` loop of `print_settlement_plan`
(lines 115–136).  `next(iter(d))` is the first key of an insertion-ordered
dict, so the loop works on the heads of the two association lists: a head
with value `0` is deleted, otherwise `min` of the two head values is emitted
as a settlement `(debtor, creditor, amount)` and subtracted from both heads. -/
def settleLoop : Balances → Balances → List Settlement
  | [], _ => []
  | _ :: _, [] => []
  | (c, cb) :: cs, (d, db) :: ds =>
    if _hc : cb = 0 then settleLoop cs ((d, db) :: ds)
    else if _hd : db = 0 then settleLoop ((c, cb) :: cs) ds
    else
      (d, c, min cb db) :: settleLoop ((c, cb - min cb db) :: cs) ((d, db - min cb db) :: ds)
termination_by cs ds => cs.length + ds.length + countNZ cs + countNZ ds
decreasing_by
  · rw [countNZ_cons_zero c cs _hc]
    simp only [List.length_cons]
    omega
  · rw [countNZ_cons_zero d ds _hd]
    simp only [List.length_cons]
    omega
  · rw [countNZ_cons_ne c cs _hc, countNZ_cons_ne d ds _hd]
    simp only [List.length_cons]
    rcases le_total cb db with h | h
    · rw [countNZ_cons_zero c cs (by simp [min_eq_left h])]
      have := countNZ_cons_le d (db - min cb db) ds
      omega
    · rw [countNZ_cons_zero d ds (by simp [min_eq_right h])]
      have := countNZ_cons_le c (cb - min cb db) cs
      omega

/-- The settlements list computed by `print_settlement_plan` (its printing of
the list is presentation, not computation). -/
def print_settlement_plan (balances : Balances) : List Settlement :=
  settleLoop (creditors balances) (debtors balances)

/-- The greedy loop again, with an explicit iteration budget: `none` means
the budget was exhausted with both dicts still non-empty. -/
def settleFuel : Nat → Balances → Balances → Option (List Settlement)
  | _, [], _ => some []
  | _, _ :: _, [] => some []
  | 0, _ :: _, _ :: _ => none
  | n + 1, (c, cb) :: cs, (d, db) :: ds =>
    if cb = 0 then settleFuel n cs ((d, db) :: ds)
    else if db = 0 then settleFuel n ((c, cb) :: cs) ds
    else
      (settleFuel n ((c, cb - min cb db) :: cs) ((d, db - min cb db) :: ds)).map
        (fun s => (d, c, min cb db) :: s)

/-- Apply one settlement instruction to the balance mapping: the debtor's
balance goes up by the amount, the creditor's goes down. -/
def applySettlement (b : Balances) (i : Settlement) : Balances :=
  addBal (addBal b i.1 i.2.2) i.2.1 (-i.2.2)

/-- Apply a list of settlement instructions in order. -/
def applyAll (b : Balances) (s : List Settlement) : Balances :=
  s.foldl applySettlement b

/-- Total amount carried by instructions whose creditor is `p`. -/
def creditTotal (s : List Settlement) (p : Person) : ℚ :=
  ((s.filter (fun i => decide (i.2.1 = p))).map (fun i => i.2.2)).sum

/-- Total amount carried by instructions whose debtor is `p`. -/
def debitTotal (s : List Settlement) (p : Person) : ℚ :=
  ((s.filter (fun i => decide (i.1 = p))).map (fun i => i.2.2)).sum

/-- Total value carried by entries of an association list with key `p`. -/
def keyTotal (l : Balances) (p : Person) : ℚ :=
  ((l.filter (fun e => decide (e.1 = p))).map Prod.snd).sum

/-- The computational content of `calculate_settlements` after the CSV has
been read: the ledger pass, the reported total, the hardcoded merge
post-step, and the settlement plan computed from the merged balances.
`none` models the run dying with a `ZeroDivisionError`. -/
def calculate_settlements (rows : List Row) : Option (Balances × ℚ × Balances × List Settlement) :=
  (ledger rows).map (fun b => (b, sumValues b, mergeStep b, print_settlement_plan (mergeStep b)))

/-! ## Basic dictionary lemmas -/

theorem getBal_addBal (b : Balances) (k p : Person) (d : ℚ) :
    getBal (addBal b k d) p = getBal b p + (if k = p then d else 0) := by
  induction b with
  | nil =>
    simp only [addBal, getBal]
    rcases eq_or_ne k p with h | h <;> simp [h]
  | cons e t ih =>
    obtain ⟨k', v⟩ := e
    simp only [addBal]
    rcases eq_or_ne k' k with hk | hk
    · subst hk
      simp only [if_pos rfl, getBal]
      rcases eq_or_ne k' p with hp | hp <;> simp [hp]
    · rw [if_neg hk]
      simp only [getBal]
      rcases eq_or_ne k' p with hp | hp
      · subst hp
        rw [if_pos rfl, if_pos rfl, if_neg (Ne.symm hk), add_zero]
      · rw [if_neg hp, if_neg hp, ih]

theorem sumValues_addBal (b : Balances) (k : Person) (d : ℚ) :
    sumValues (addBal b k d) = sumValues b + d := by
  induction b with
  | nil => simp [addBal, sumValues]
  | cons e t ih =>
    obtain ⟨k', v⟩ := e
    simp only [addBal]
    rcases eq_or_ne k' k with hk | hk
    · simp [hk, sumValues]
      ring
    · simp [if_neg hk, sumValues] at ih ⊢
      rw [ih]
      ring

theorem getBal_setBal_same (b : Balances) (k : Person) (v : ℚ) :
    getBal (setBal b k v) k = v := by
  induction b with
  | nil => simp [setBal, getBal]
  | cons e t ih =>
    obtain ⟨k', v'⟩ := e
    simp only [setBal]
    rcases eq_or_ne k' k with hk | hk
    · simp [hk, getBal]
    · simp [if_neg hk, getBal, hk, ih]

theorem getBal_setBal_ne (b : Balances) (k p : Person) (v : ℚ) (h : k ≠ p) :
    getBal (setBal b k v) p = getBal b p := by
  induction b with
  | nil => simp [setBal, getBal, h]
  | cons e t ih =>
    obtain ⟨k', v'⟩ := e
    simp only [setBal]
    rcases eq_or_ne k' k with hk | hk
    · subst hk
      simp [getBal, h]
    · simp [if_neg hk, getBal, ih]

theorem sumValues_setBal (b : Balances) (k : Person) (v : ℚ) :
    sumValues (setBal b k v) = sumValues b + v - getBal b k := by
  induction b with
  | nil => simp [setBal, getBal, sumValues]
  | cons e t ih =>
    obtain ⟨k', v'⟩ := e
    simp only [setBal]
    rcases eq_or_ne k' k with hk | hk
    · simp [hk, sumValues, getBal]
      ring
    · simp only [if_neg hk, sumValues, getBal, List.map_cons, List.sum_cons] at ih ⊢
      rw [ih]
      ring

theorem sumValues_foldl_addBal {α : Type} (l : List α) (f : α → Person) (d : ℚ) (b : Balances) :
    sumValues (l.foldl (fun acc q => addBal acc (f q) d) b) = sumValues b + l.length * d := by
  induction l generalizing b with
  | nil => simp
  | cons x t ih =>
    simp only [List.foldl_cons, List.length_cons, ih, sumValues_addBal]
    push_cast
    ring

/-! ## The ledger pass preserves the total (C1) -/

theorem sumValues_benefitPhase (people : List String) (r : Row) (b : Balances)
    (h : (benefitingSet people r).length ≠ 0) :
    sumValues (benefitPhase people r b) = sumValues b - r.Amount := by
  unfold benefitPhase
  rw [sumValues_foldl_addBal]
  have hc : ((benefitingSet people r).length : ℚ) ≠ 0 := Nat.cast_ne_zero.mpr h
  field_simp
  ring

theorem sumValues_payPhase (people : List String) (r : Row) (b : Balances)
    (h : (payingSet people r).length ≠ 0) :
    sumValues (payPhase people r b) = sumValues b + r.Amount := by
  unfold payPhase
  rw [sumValues_foldl_addBal]
  have hc : ((payingSet people r).length : ℚ) ≠ 0 := Nat.cast_ne_zero.mpr h
  field_simp

theorem processRow_eq (people : List String) (b : Balances) (r : Row)
    (h1 : (benefitingSet people r).length ≠ 0) (h2 : (payingSet people r).length ≠ 0) :
    processRow people b r = some (payPhase people r (benefitPhase people r b)) := by
  simp [processRow, h1, h2]

theorem processRow_sum (people : List String) (b : Balances) (r : Row)
    (h1 : (benefitingSet people r).length ≠ 0) (h2 : (payingSet people r).length ≠ 0) :
    sumValues (payPhase people r (benefitPhase people r b)) = sumValues b := by
  rw [sumValues_payPhase people r _ h2, sumValues_benefitPhase people r b h1]
  ring

theorem foldlM_processRow_sum (people : List String) (rows : List Row) (b : Balances)
    (h : ∀ r ∈ rows, (benefitingSet people r).length ≠ 0 ∧ (payingSet people r).length ≠ 0) :
    ∃ b', rows.foldlM (processRow people) b = some b' ∧ sumValues b' = sumValues b := by
  induction rows generalizing b with
  | nil => exact ⟨b, rfl, rfl⟩
  | cons r t ih =>
    obtain ⟨h1, h2⟩ := h r (List.mem_cons_self r t)
    obtain ⟨b', hb', hs⟩ := ih (payPhase people r (benefitPhase people r b))
      (fun x hx => h x (List.mem_cons_of_mem r hx))
    refine ⟨b', ?_, ?_⟩
    · rw [List.foldlM_cons, processRow_eq people b r h1 h2]
      exact hb'
    · rw [hs, processRow_sum people b r h1 h2]

/-- C1: for well-formed transaction records (positive amount, non-empty
paying and benefiting sets), the ledger pass succeeds and the resulting
balances sum to exactly `0` in exact rational arithmetic: each transaction
subtracts `amount` in total from the benefiting set and adds `amount` in
total to the paying set. -/
theorem ledger_zero_sum (rows : List Row)
    (hwf : ∀ r ∈ rows, 0 < r.Amount ∧ benefitingSet (peopleOf rows) r ≠ [] ∧
      payingSet (peopleOf rows) r ≠ []) :
    ∃ b, ledger rows = some b ∧ sumValues b = 0 := by
  have h : ∀ r ∈ rows, (benefitingSet (peopleOf rows) r).length ≠ 0 ∧
      (payingSet (peopleOf rows) r).length ≠ 0 := by
    intro r hr
    obtain ⟨-, h1, h2⟩ := hwf r hr
    constructor
    · exact fun hl => h1 (List.length_eq_zero.mp hl)
    · exact fun hl => h2 (List.length_eq_zero.mp hl)
  obtain ⟨b, hb, hs⟩ := foldlM_processRow_sum (peopleOf rows) rows [] h
  exact ⟨b, hb, by simpa [sumValues] using hs⟩

/-- A one-transaction input used by witnesses: `A` paid 10 for `A, B`. -/
def wRows : List Row := [⟨some "A", 10, some "A, B"⟩]

theorem ledger_zero_sum_witness :
    (∀ r ∈ wRows, 0 < r.Amount ∧ benefitingSet (peopleOf wRows) r ≠ [] ∧
      payingSet (peopleOf wRows) r ≠ []) ∧
    ∃ b, ledger wRows = some b ∧ sumValues b = 0 :=
  ⟨by decide, ledger_zero_sum wRows (by decide)⟩

/-! ## Error handling of malformed records (C4) -/

/-- An input whose single record has a negative amount. -/
def badRows : List Row := [⟨some "A", -5, some "A, B"⟩]

/-- C4 counterexample: the claim says a record with a non-positive amount is
rejected and reported; instead the run completes silently, the `-5`
transaction is split like any other, and a settlement plan is even produced
from the resulting balances. -/
theorem negative_amount_processed :
    (⟨some "A", -5, some "A, B"⟩ : Row) ∈ badRows ∧
    (⟨some "A", -5, some "A, B"⟩ : Row).Amount ≤ 0 ∧
    calculate_settlements badRows =
      some ([(some "A", -5/2), (some "B", 5/2)], 0, [(some "A", -5/2), (some "B", 5/2)],
        [(some "A", some "B", 5/2)]) := by
  refine ⟨by decide, by norm_num, ?_⟩
  norm_num +decide [badRows, calculate_settlements, ledger, List.foldlM_cons, List.foldlM_nil,
    processRow, benefitPhase, payPhase, peopleOf, peopleRaw, rowPeople, addPerson, splitInvolved,
    splitCommaSpace, benefitingSet, payingSet, pyLower, lowerChar, addBal, getBal, sumValues,
    mergeStep, mergeBalance, setBal, print_settlement_plan, creditors, debtors]
  repeat (rw [settleLoop]; norm_num)
  simp [settleLoop]

/-- C4 (amended): the code performs no record-level validation.  Any input
all of whose records have non-empty benefiting and paying sets is processed
to completion without rejection or report, regardless of the sign of any
amount; only an empty benefiting or paying set stops the run, and that via
an unreported `ZeroDivisionError`, not a diagnostic. -/
theorem no_record_validation (rows : List Row)
    (h : ∀ r ∈ rows, benefitingSet (peopleOf rows) r ≠ [] ∧ payingSet (peopleOf rows) r ≠ []) :
    calculate_settlements rows ≠ none := by
  have h' : ∀ r ∈ rows, (benefitingSet (peopleOf rows) r).length ≠ 0 ∧
      (payingSet (peopleOf rows) r).length ≠ 0 := by
    intro r hr
    obtain ⟨h1, h2⟩ := h r hr
    exact ⟨fun hl => h1 (List.length_eq_zero.mp hl), fun hl => h2 (List.length_eq_zero.mp hl)⟩
  obtain ⟨b, hb, -⟩ := foldlM_processRow_sum (peopleOf rows) rows [] h'
  simp [calculate_settlements, ledger, hb]

theorem no_record_validation_witness :
    (∀ r ∈ badRows, benefitingSet (peopleOf badRows) r ≠ [] ∧
      payingSet (peopleOf badRows) r ≠ []) ∧
    calculate_settlements badRows ≠ none :=
  ⟨by decide, no_record_validation badRows (by decide)⟩

/-! ## The merge post-step (C9) -/

/-- C9: when both `'Suruthy'` and `'Arabi'` are keys of the balance mapping,
the merge post-step zeroes `'Suruthy'`, adds exactly `'Suruthy'`'s prior
balance to `'Arabi'`, leaves every other key's balance unchanged, and
preserves the total of all balances. -/
theorem merge_step_spec (b : Balances)
    (hs : some "Suruthy" ∈ b.map Prod.fst) (ha : some "Arabi" ∈ b.map Prod.fst) :
    getBal (mergeStep b) (some "Suruthy") = 0 ∧
    getBal (mergeStep b) (some "Arabi") = getBal b (some "Arabi") + getBal b (some "Suruthy") ∧
    (∀ q : Person, q ≠ some "Suruthy" → q ≠ some "Arabi" → getBal (mergeStep b) q = getBal b q) ∧
    sumValues (mergeStep b) = sumValues b := by
  have hcond : some "Suruthy" ∈ b.map Prod.fst ∧ some "Arabi" ∈ b.map Prod.fst := ⟨hs, ha⟩
  have hne : (some "Suruthy" : Person) ≠ some "Arabi" := by decide
  unfold mergeStep mergeBalance
  rw [if_pos hcond]
  refine ⟨getBal_setBal_same _ _ _, ?_, ?_, ?_⟩
  · rw [getBal_setBal_ne _ _ _ _ hne, getBal_addBal]
    simp
  · intro q hqS hqA
    rw [getBal_setBal_ne _ _ _ _ (Ne.symm hqS), getBal_addBal, if_neg (Ne.symm hqA), add_zero]
  · rw [sumValues_setBal, sumValues_addBal, getBal_addBal, if_neg (Ne.symm hne), add_zero]
    ring

theorem merge_step_spec_witness :
    ((some "Suruthy" : Person) ∈ ([(some "Suruthy", (7 : ℚ)), (some "Arabi", 2), (some "B", -9)] :
        Balances).map Prod.fst) ∧
    ((some "Arabi" : Person) ∈ ([(some "Suruthy", (7 : ℚ)), (some "Arabi", 2), (some "B", -9)] :
        Balances).map Prod.fst) ∧
    getBal (mergeStep [(some "Suruthy", 7), (some "Arabi", 2), (some "B", -9)]) (some "Suruthy") = 0 ∧
    getBal (mergeStep [(some "Suruthy", 7), (some "Arabi", 2), (some "B", -9)]) (some "B") =
      getBal [(some "Suruthy", (7 : ℚ)), (some "Arabi", 2), (some "B", -9)] (some "B") := by
  refine ⟨by decide, by decide, ?_, ?_⟩
  · exact (merge_step_spec [(some "Suruthy", 7), (some "Arabi", 2), (some "B", -9)]
      (by decide) (by decide)).1
  · exact (merge_step_spec [(some "Suruthy", 7), (some "Arabi", 2), (some "B", -9)]
      (by decide) (by decide)).2.2.1 (some "B") (by decide) (by decide)

/-! ## Registry lemmas -/

theorem mem_addPerson_self (ps : List String) (p : String) : p ∈ addPerson ps p := by
  unfold addPerson
  split
  · assumption
  · simp

theorem mem_addPerson_of_mem (ps : List String) (p q : String) (h : q ∈ ps) :
    q ∈ addPerson ps p := by
  unfold addPerson
  split
  · exact h
  · simp [h]

theorem mem_foldl_addPerson_of_mem (l : List String) (ps : List String) (q : String)
    (h : q ∈ ps) : q ∈ l.foldl addPerson ps := by
  induction l generalizing ps with
  | nil => exact h
  | cons x t ih => exact ih (addPerson ps x) (mem_addPerson_of_mem ps x q h)

theorem mem_rowPeople_of_mem (ps : List String) (r : Row) (q : String) (h : q ∈ ps) :
    q ∈ rowPeople ps r := by
  unfold rowPeople
  rcases r.Involved with - | s <;> rcases r.Payer with - | p
  · exact h
  · exact mem_addPerson_of_mem _ p q h
  · exact mem_foldl_addPerson_of_mem _ ps q h
  · exact mem_addPerson_of_mem _ p q (mem_foldl_addPerson_of_mem _ ps q h)

theorem payer_mem_rowPeople (ps : List String) (r : Row) (p : String) (h : r.Payer = some p) :
    p ∈ rowPeople ps r := by
  unfold rowPeople
  rw [h]
  rcases r.Involved with - | s
  · exact mem_addPerson_self ps p
  · exact mem_addPerson_self _ p

theorem mem_foldl_rowPeople_of_mem (rows : List Row) (ps : List String) (q : String)
    (h : q ∈ ps) : q ∈ rows.foldl rowPeople ps := by
  induction rows generalizing ps with
  | nil => exact h
  | cons r t ih => exact ih (rowPeople ps r) (mem_rowPeople_of_mem ps r q h)

theorem payer_mem_foldl_rowPeople (rows : List Row) (r : Row) (p : String)
    (hp : r.Payer = some p) :
    ∀ ps, r ∈ rows → p ∈ rows.foldl rowPeople ps := by
  induction rows with
  | nil =>
    intro ps hr
    cases hr
  | cons x t ih =>
    intro ps hr
    rcases List.mem_cons.mp hr with h | h
    · subst h
      exact mem_foldl_rowPeople_of_mem t _ p (payer_mem_rowPeople ps r p hp)
    · exact ih _ h

theorem payer_mem_peopleRaw (rows : List Row) (r : Row) (p : String)
    (hr : r ∈ rows) (hp : r.Payer = some p) : p ∈ peopleRaw rows :=
  payer_mem_foldl_rowPeople rows r p hp [] hr

theorem payer_mem_peopleOf (rows : List Row) (r : Row) (p : String)
    (hr : r ∈ rows) (hp : r.Payer = some p) (hne : p ≠ "Cash") : p ∈ peopleOf rows := by
  unfold peopleOf
  rw [List.mem_filter]
  exact ⟨payer_mem_peopleRaw rows r p hr hp, by simp [hne]⟩

theorem cash_not_mem_peopleOf (rows : List Row) : "Cash" ∉ peopleOf rows := by
  unfold peopleOf
  rw [List.mem_filter]
  simp

theorem nodup_addPerson (ps : List String) (p : String) (h : ps.Nodup) :
    (addPerson ps p).Nodup := by
  unfold addPerson
  split
  · exact h
  · next hmem => simp [List.nodup_append, h, hmem]

theorem nodup_foldl_addPerson (l : List String) (ps : List String) (h : ps.Nodup) :
    (l.foldl addPerson ps).Nodup := by
  induction l generalizing ps with
  | nil => exact h
  | cons x t ih => exact ih (addPerson ps x) (nodup_addPerson ps x h)

theorem nodup_rowPeople (ps : List String) (r : Row) (h : ps.Nodup) : (rowPeople ps r).Nodup := by
  unfold rowPeople
  rcases r.Involved with - | s <;> rcases r.Payer with - | p
  · exact h
  · exact nodup_addPerson _ p h
  · exact nodup_foldl_addPerson _ ps h
  · exact nodup_addPerson _ p (nodup_foldl_addPerson _ ps h)

theorem nodup_peopleRaw (rows : List Row) : (peopleRaw rows).Nodup := by
  unfold peopleRaw
  have : ∀ ps : List String, ps.Nodup → (rows.foldl rowPeople ps).Nodup := by
    induction rows with
    | nil => exact fun ps h => h
    | cons r t ih => exact fun ps h => ih (rowPeople ps r) (nodup_rowPeople ps r h)
  exact this [] List.nodup_nil

theorem nodup_peopleOf (rows : List Row) : (peopleOf rows).Nodup :=
  (nodup_peopleRaw rows).filter _

theorem getBal_foldl_addBal_not_mem (l : List Person) (q : Person) (d : ℚ) (b : Balances)
    (hq : q ∉ l) :
    getBal (l.foldl (fun acc k => addBal acc k d) b) q = getBal b q := by
  induction l generalizing b with
  | nil => rfl
  | cons x t ih =>
    simp only [List.foldl_cons]
    rw [ih _ (fun h => hq (List.mem_cons_of_mem x h)), getBal_addBal, if_neg, add_zero]
    intro h
    subst h
    exact hq (List.mem_cons_self _ _)

theorem getBal_foldl_addBal_mem (l : List Person) (q : Person) (d : ℚ) (b : Balances)
    (hnd : l.Nodup) (hq : q ∈ l) :
    getBal (l.foldl (fun acc k => addBal acc k d) b) q = getBal b q + d := by
  induction l generalizing b with
  | nil => cases hq
  | cons x t ih =>
    simp only [List.foldl_cons]
    rcases List.mem_cons.mp hq with h | h
    · subst h
      rw [getBal_foldl_addBal_not_mem t q d _ (List.nodup_cons.mp hnd).1, getBal_addBal,
        if_pos rfl]
    · have hx : x ≠ q := by
        rintro rfl
        exact (List.nodup_cons.mp hnd).1 h
      rw [ih _ (List.nodup_cons.mp hnd).2 h, getBal_addBal, if_neg hx, add_zero]

/-! ## Benefiting-set default (C5) -/

/-- C5: an `Involved` cell that is present in the CSV but empty is read by
pandas as `NaN` (`pdCell ""` = `none`), so the ledger pass resolves the
benefiting set to the full person registry, exactly as when the field is
absent, and the whole transaction is processed identically in the two
cases. -/
theorem empty_involved_defaults_to_registry (people : List String) (py : Option String)
    (a : ℚ) (b : Balances) :
    benefitingSet people ⟨py, a, pdCell ""⟩ = people ∧
    benefitingSet people ⟨py, a, none⟩ = people ∧
    processRow people b ⟨py, a, pdCell ""⟩ = processRow people b ⟨py, a, none⟩ :=
  ⟨rfl, rfl, rfl⟩

/-! ## The "Cash" sentinel (C6, C10) -/

/-- C6 (amended): for a transaction whose payer is exactly `"Cash"`, the
paying set is the full person registry and each registry member's balance
rises by `amount / |registry|` in the paying phase; the exact string
`"Cash"` is excluded from the registry; and a payer whose *lowercased* form
is not `"cash"` gets the singleton paying set.  (The unamended "every other
payer" version is false: see the counterexample with payer `"CASH"`.) -/
theorem cash_sentinel_semantics (rows : List Row) (r : Row) (b : Balances) (q : String)
    (people' : List String) (p' : String) (a' : ℚ) (inv' : Option String)
    (hpay : r.Payer = some "Cash") (hq : q ∈ peopleOf rows) (hp' : pyLower p' ≠ "cash") :
    "Cash" ∉ peopleOf rows ∧
    payingSet (peopleOf rows) r = (peopleOf rows).map some ∧
    getBal (payPhase (peopleOf rows) r b) (some q)
      = getBal b (some q) + r.Amount / ((peopleOf rows).length : ℚ) ∧
    payingSet people' ⟨some p', a', inv'⟩ = [some p'] := by
  have hset : payingSet (peopleOf rows) r = (peopleOf rows).map some := by
    unfold payingSet
    rw [hpay]
    simp only [if_pos (show pyLower "Cash" = "cash" by decide)]
  refine ⟨cash_not_mem_peopleOf rows, hset, ?_, ?_⟩
  · simp only [payPhase, hset, List.length_map]
    exact getBal_foldl_addBal_mem _ (some q) _ b
      ((nodup_peopleOf rows).map (Option.some_injective _)) (List.mem_map_of_mem some hq)
  · unfold payingSet
    simp only [if_neg hp']

/-- The input used for the C6 witness: `Cash` paid 10 for `A, B`. -/
def cashRows : List Row := [⟨some "Cash", 10, some "A, B"⟩]

theorem cash_sentinel_semantics_witness :
    ((⟨some "Cash", 10, some "A, B"⟩ : Row).Payer = some "Cash") ∧
    ("A" ∈ peopleOf cashRows) ∧
    (pyLower "Bob" ≠ "cash") ∧
    ("Cash" ∉ peopleOf cashRows ∧
      payingSet (peopleOf cashRows) ⟨some "Cash", 10, some "A, B"⟩ =
        (peopleOf cashRows).map some ∧
      getBal (payPhase (peopleOf cashRows) ⟨some "Cash", 10, some "A, B"⟩ []) (some "A")
        = getBal [] (some "A") + (⟨some "Cash", 10, some "A, B"⟩ : Row).Amount /
            ((peopleOf cashRows).length : ℚ) ∧
      payingSet ["X"] ⟨some "Bob", 1, none⟩ = [some "Bob"]) :=
  ⟨rfl, by decide, by decide,
    cash_sentinel_semantics cashRows ⟨some "Cash", 10, some "A, B"⟩ [] "A" ["X"] "Bob" 1 none
      rfl (by decide) (by decide)⟩

/-- The input used for the C6 counterexample and the C10 witness: the payer
string is `"CASH"`, which lowercases to `"cash"` but is not the exact
sentinel `"Cash"`. -/
def upperCashRows : List Row := [⟨some "CASH", 10, some "A, B"⟩]

/-- C6 counterexample: `"CASH"` is not the `"Cash"` sentinel, yet its paying
set is the whole registry rather than the singleton `{"CASH"}` that the
claim's "for every other payer" clause demands. -/
theorem upper_cash_not_singleton :
    ("CASH" : String) ≠ "Cash" ∧
    payingSet (peopleOf upperCashRows) ⟨some "CASH", 10, some "A, B"⟩ ≠ [some "CASH"] ∧
    payingSet (peopleOf upperCashRows) ⟨some "CASH", 10, some "A, B"⟩ =
      [some "A", some "B", some "CASH"] := by
  refine ⟨by decide, by decide, by decide⟩

/-- C10: a payer that equals the cash sentinel in a different letter casing
(lowercases to `"cash"` but differs from the exact `"Cash"`) gets cash-pool
semantics — the paying set is the full registry — while the payer string
itself stays in the registry, so it is also treated as an ordinary person. -/
theorem lowercase_cash_payer (rows : List Row) (r : Row) (p : String)
    (hr : r ∈ rows) (hp : r.Payer = some p) (hlow : pyLower p = "cash") (hne : p ≠ "Cash") :
    payingSet (peopleOf rows) r = (peopleOf rows).map some ∧ p ∈ peopleOf rows := by
  constructor
  · unfold payingSet
    rw [hp]
    simp only [if_pos hlow]
  · exact payer_mem_peopleOf rows r p hr hp hne

theorem lowercase_cash_payer_witness :
    ((⟨some "CASH", 10, some "A, B"⟩ : Row) ∈ upperCashRows) ∧
    ((⟨some "CASH", 10, some "A, B"⟩ : Row).Payer = some "CASH") ∧
    (pyLower "CASH" = "cash") ∧
    ("CASH" : String) ≠ "Cash" ∧
    (payingSet (peopleOf upperCashRows) ⟨some "CASH", 10, some "A, B"⟩ =
        (peopleOf upperCashRows).map some ∧
      "CASH" ∈ peopleOf upperCashRows) :=
  ⟨by decide, rfl, by decide, by decide,
    lowercase_cash_payer upperCashRows ⟨some "CASH", 10, some "A, B"⟩ "CASH"
      (by decide) rfl (by decide) (by decide)⟩

/-! ## Greedy-loop unfolding equations -/

theorem settleLoop_nil_left (ds : Balances) : settleLoop [] ds = [] := by
  simp [settleLoop]

theorem settleLoop_nil_right (e : Person × ℚ) (cs : Balances) : settleLoop (e :: cs) [] = [] := by
  simp [settleLoop]

theorem settleLoop_del_c (c d : Person) (db : ℚ) (cs ds : Balances) :
    settleLoop ((c, 0) :: cs) ((d, db) :: ds) = settleLoop cs ((d, db) :: ds) := by
  rw [settleLoop]
  simp

theorem settleLoop_del_d (c d : Person) (cb : ℚ) (cs ds : Balances) (hc : cb ≠ 0) :
    settleLoop ((c, cb) :: cs) ((d, 0) :: ds) = settleLoop ((c, cb) :: cs) ds := by
  rw [settleLoop]
  simp [hc]

theorem settleLoop_step (c d : Person) (cb db : ℚ) (cs ds : Balances)
    (hc : cb ≠ 0) (hd : db ≠ 0) :
    settleLoop ((c, cb) :: cs) ((d, db) :: ds) =
      (d, c, min cb db) :: settleLoop ((c, cb - min cb db) :: cs) ((d, db - min cb db) :: ds) := by
  rw [settleLoop]
  simp [hc, hd]

/-! ## Totals bookkeeping -/

theorem keyTotal_cons (k : Person) (v : ℚ) (t : Balances) (p : Person) :
    keyTotal ((k, v) :: t) p = (if k = p then v else 0) + keyTotal t p := by
  by_cases h : k = p <;> simp [keyTotal, List.filter_cons, h]

theorem creditTotal_cons (d c : Person) (a : ℚ) (s : List Settlement) (p : Person) :
    creditTotal ((d, c, a) :: s) p = (if c = p then a else 0) + creditTotal s p := by
  by_cases h : c = p <;> simp [creditTotal, List.filter_cons, h]

theorem debitTotal_cons (d c : Person) (a : ℚ) (s : List Settlement) (p : Person) :
    debitTotal ((d, c, a) :: s) p = (if d = p then a else 0) + debitTotal s p := by
  by_cases h : d = p <;> simp [debitTotal, List.filter_cons, h]

theorem sumValues_nonneg (l : Balances) (h : ∀ e ∈ l, 0 ≤ e.2) : 0 ≤ sumValues l := by
  induction l with
  | nil => simp [sumValues]
  | cons e t ih =>
    have he := h e (List.mem_cons_self e t)
    have ht := ih (fun x hx => h x (List.mem_cons_of_mem e hx))
    simp only [sumValues, List.map_cons, List.sum_cons] at *
    linarith

theorem keyTotal_eq_zero_of_sum_zero (l : Balances) (p : Person)
    (h : ∀ e ∈ l, 0 ≤ e.2) (hs : sumValues l = 0) : keyTotal l p = 0 := by
  induction l with
  | nil => simp [keyTotal]
  | cons e t ih =>
    obtain ⟨k, v⟩ := e
    have hv : 0 ≤ v := h (k, v) (List.mem_cons_self _ _)
    have ht0 : 0 ≤ sumValues t :=
      sumValues_nonneg t (fun x hx => h x (List.mem_cons_of_mem _ hx))
    simp only [sumValues, List.map_cons, List.sum_cons] at hs ht0
    have hv0 : v = 0 := by linarith
    have hts : sumValues t = 0 := by
      simp only [sumValues]
      linarith
    rw [keyTotal_cons, hv0,
      ih (fun x hx => h x (List.mem_cons_of_mem _ hx)) hts]
    simp

/-- The loop invariant behind settlement correctness: when both dicts hold
only non-negative values and their totals agree, the emitted instructions
credit each person exactly their entry total in `creditors` and debit each
person exactly their entry total in `debtors`. -/
theorem settleLoop_totals (cs ds : Balances) :
    ∀ p : Person, (∀ e ∈ cs, 0 ≤ e.2) → (∀ e ∈ ds, 0 ≤ e.2) →
    sumValues cs = sumValues ds →
    creditTotal (settleLoop cs ds) p = keyTotal cs p ∧
    debitTotal (settleLoop cs ds) p = keyTotal ds p := by
  induction cs, ds using settleLoop.induct with
  | case1 ds =>
    intro p hcs hds hsum
    have h0 : sumValues ds = 0 := by
      rw [← hsum]
      simp [sumValues]
    rw [settleLoop_nil_left]
    simp [creditTotal, debitTotal, keyTotal,
      (keyTotal_eq_zero_of_sum_zero ds p hds h0).symm]
  | case2 e cs =>
    intro p hcs hds hsum
    have h0 : sumValues (e :: cs) = 0 := by
      rw [hsum]
      simp [sumValues]
    rw [settleLoop_nil_right]
    simp [creditTotal, debitTotal, keyTotal,
      (keyTotal_eq_zero_of_sum_zero (e :: cs) p hcs h0).symm]
  | case3 c cs d db ds ih =>
    intro p hcs hds hsum
    have hsum' : sumValues cs = sumValues ((d, db) :: ds) := by
      simp only [sumValues, List.map_cons, List.sum_cons] at hsum ⊢
      linarith
    obtain ⟨ihc, ihd⟩ := ih p (fun e he => hcs e (List.mem_cons_of_mem _ he)) hds hsum'
    rw [settleLoop_del_c, ihc, ihd]
    simp [keyTotal_cons]
  | case4 c cb cs d ds hc ih =>
    intro p hcs hds hsum
    have hsum' : sumValues ((c, cb) :: cs) = sumValues ds := by
      simp only [sumValues, List.map_cons, List.sum_cons] at hsum ⊢
      linarith
    obtain ⟨ihc, ihd⟩ := ih p hcs (fun e he => hds e (List.mem_cons_of_mem _ he)) hsum'
    rw [settleLoop_del_d c d cb cs ds hc, ihc, ihd]
    simp [keyTotal_cons]
  | case5 c cb cs d db ds hc hd ih =>
    intro p hcs hds hsum
    have hmc : min cb db ≤ cb := min_le_left cb db
    have hmd : min cb db ≤ db := min_le_right cb db
    have hcs' : ∀ e ∈ (c, cb - min cb db) :: cs, 0 ≤ e.2 := by
      intro e he
      rcases List.mem_cons.mp he with rfl | he'
      · exact sub_nonneg.mpr hmc
      · exact hcs e (List.mem_cons_of_mem _ he')
    have hds' : ∀ e ∈ (d, db - min cb db) :: ds, 0 ≤ e.2 := by
      intro e he
      rcases List.mem_cons.mp he with rfl | he'
      · exact sub_nonneg.mpr hmd
      · exact hds e (List.mem_cons_of_mem _ he')
    have hsum' : sumValues ((c, cb - min cb db) :: cs) =
        sumValues ((d, db - min cb db) :: ds) := by
      simp only [sumValues, List.map_cons, List.sum_cons] at hsum ⊢
      linarith
    obtain ⟨ihc, ihd⟩ := ih p hcs' hds' hsum'
    rw [settleLoop_step c d cb db cs ds hc hd]
    constructor
    · rw [creditTotal_cons, ihc, keyTotal_cons, keyTotal_cons]
      by_cases h : c = p <;> simp [h] <;> ring
    · rw [debitTotal_cons, ihd, keyTotal_cons, keyTotal_cons]
      by_cases h : d = p <;> simp [h] <;> ring

theorem getBal_applyAll (b : Balances) (s : List Settlement) (p : Person) :
    getBal (applyAll b s) p = getBal b p + debitTotal s p - creditTotal s p := by
  induction s generalizing b with
  | nil => simp [applyAll, debitTotal, creditTotal]
  | cons i t ih =>
    obtain ⟨d, c, a⟩ := i
    simp only [applyAll, List.foldl_cons] at ih ⊢
    rw [ih, debitTotal_cons, creditTotal_cons]
    simp only [applySettlement, getBal_addBal]
    by_cases hd : d = p <;> by_cases hc : c = p <;> simp [hd, hc] <;> ring

theorem creditors_nonneg (b : Balances) : ∀ e ∈ creditors b, 0 ≤ e.2 := by
  intro e he
  have := (List.mem_filter.mp he).2
  simp only [decide_eq_true_eq] at this
  exact le_of_lt this

theorem debtors_nonneg (b : Balances) : ∀ e ∈ debtors b, 0 ≤ e.2 := by
  intro e he
  obtain ⟨x, hx, hxe⟩ := List.mem_map.mp he
  have := (List.mem_filter.mp hx).2
  simp only [decide_eq_true_eq] at this
  rw [← hxe]
  simp only
  linarith

theorem keyTotal_not_mem (l : Balances) (p : Person) (h : ∀ e ∈ l, e.1 ≠ p) :
    keyTotal l p = 0 := by
  induction l with
  | nil => simp [keyTotal]
  | cons e t ih =>
    obtain ⟨k, v⟩ := e
    rw [keyTotal_cons, if_neg (h (k, v) (List.mem_cons_self _ _)),
      ih (fun x hx => h x (List.mem_cons_of_mem _ hx))]
    simp

theorem keyTotal_creditors_of_not_mem (t : Balances) (p : Person)
    (h : p ∉ t.map Prod.fst) : keyTotal (creditors t) p = 0 := by
  apply keyTotal_not_mem
  intro e he hep
  exact h (hep ▸ List.mem_map_of_mem Prod.fst (List.mem_filter.mp he).1)

theorem keyTotal_debtors_of_not_mem (t : Balances) (p : Person)
    (h : p ∉ t.map Prod.fst) : keyTotal (debtors t) p = 0 := by
  apply keyTotal_not_mem
  intro e he hep
  obtain ⟨x, hx, hxe⟩ := List.mem_map.mp he
  apply h
  rw [← hep, ← hxe]
  simpa using List.mem_map_of_mem Prod.fst (List.mem_filter.mp hx).1

theorem keyTotal_creditors (b : Balances) (p : Person) (hnd : (b.map Prod.fst).Nodup) :
    keyTotal (creditors b) p = if 0 < getBal b p then getBal b p else 0 := by
  induction b with
  | nil => simp [creditors, keyTotal, getBal]
  | cons e t ih =>
    obtain ⟨k, v⟩ := e
    simp only [List.map_cons, List.nodup_cons] at hnd
    obtain ⟨hk, hnd'⟩ := hnd
    have hsplit : creditors ((k, v) :: t) =
        if 0 < v then (k, v) :: creditors t else creditors t := by
      by_cases hv : 0 < v <;> simp [creditors, List.filter_cons, hv]
    by_cases hp : k = p
    · subst hp
      have ht : keyTotal (creditors t) k = 0 := keyTotal_creditors_of_not_mem t k hk
      have hg : getBal ((k, v) :: t) k = v := by simp [getBal]
      rw [hg, hsplit]
      by_cases hv : 0 < v
      · rw [if_pos hv, keyTotal_cons, if_pos rfl, ht, if_pos hv]
        ring
      · rw [if_neg hv, ht, if_neg hv]
    · have hg : getBal ((k, v) :: t) p = getBal t p := by simp [getBal, hp]
      rw [hg, ← ih hnd', hsplit]
      by_cases hv : 0 < v
      · rw [if_pos hv, keyTotal_cons, if_neg hp, zero_add]
      · rw [if_neg hv]

theorem keyTotal_debtors (b : Balances) (p : Person) (hnd : (b.map Prod.fst).Nodup) :
    keyTotal (debtors b) p = if getBal b p < 0 then -getBal b p else 0 := by
  induction b with
  | nil => simp [debtors, keyTotal, getBal]
  | cons e t ih =>
    obtain ⟨k, v⟩ := e
    simp only [List.map_cons, List.nodup_cons] at hnd
    obtain ⟨hk, hnd'⟩ := hnd
    have hsplit : debtors ((k, v) :: t) =
        if v < 0 then (k, -v) :: debtors t else debtors t := by
      by_cases hv : v < 0 <;> simp [debtors, List.filter_cons, hv]
    by_cases hp : k = p
    · subst hp
      have ht : keyTotal (debtors t) k = 0 := keyTotal_debtors_of_not_mem t k hk
      have hg : getBal ((k, v) :: t) k = v := by simp [getBal]
      rw [hg, hsplit]
      by_cases hv : v < 0
      · rw [if_pos hv, keyTotal_cons, if_pos rfl, ht, if_pos hv]
        ring
      · rw [if_neg hv, ht, if_neg hv]
    · have hg : getBal ((k, v) :: t) p = getBal t p := by simp [getBal, hp]
      rw [hg, ← ih hnd', hsplit]
      by_cases hv : v < 0
      · rw [if_pos hv, keyTotal_cons, if_neg hp, zero_add]
      · rw [if_neg hv]

/-- C2: for a balance mapping whose positive entries sum to the same value
as the absolute sum of its negative entries, applying every instruction
emitted by `print_settlement_plan`, in order — debtor's balance up by the
amount, creditor's down — drives every balance in the mapping to exactly
`0`. -/
theorem settlement_plan_settles (b : Balances)
    (hnd : (b.map Prod.fst).Nodup)
    (hsum : sumValues (creditors b) = sumValues (debtors b)) :
    ∀ p : Person, getBal (applyAll b (print_settlement_plan b)) p = 0 := by
  intro p
  obtain ⟨hc, hd⟩ := settleLoop_totals (creditors b) (debtors b) p
    (creditors_nonneg b) (debtors_nonneg b) hsum
  rw [getBal_applyAll]
  unfold print_settlement_plan
  rw [hc, hd, keyTotal_creditors b p hnd, keyTotal_debtors b p hnd]
  rcases lt_trichotomy (getBal b p) 0 with h | h | h
  · rw [if_pos h, if_neg (by linarith)]
    ring
  · rw [h]
    simp
  · rw [if_neg (by linarith), if_pos h]
    ring

/-- The two-person balance mapping used by planner witnesses. -/
def wBal : Balances := [(some "A", 5), (some "B", -5)]

theorem settlement_plan_settles_witness :
    ((wBal.map Prod.fst).Nodup) ∧
    (sumValues (creditors wBal) = sumValues (debtors wBal)) ∧
    getBal (applyAll wBal (print_settlement_plan wBal)) (some "A") = 0 ∧
    getBal (applyAll wBal (print_settlement_plan wBal)) (some "B") = 0 :=
  ⟨by decide, by norm_num +decide [wBal, creditors, debtors, sumValues],
    settlement_plan_settles wBal (by decide)
      (by norm_num +decide [wBal, creditors, debtors, sumValues]) (some "A"),
    settlement_plan_settles wBal (by decide)
      (by norm_num +decide [wBal, creditors, debtors, sumValues]) (some "B")⟩

/-! ## Instruction-count bound (C3) -/

theorem settleLoop_length_bound (cs ds : Balances) :
    (∀ e ∈ cs, 0 ≤ e.2) → (∀ e ∈ ds, 0 ≤ e.2) →
    (settleLoop cs ds).length ≤ countNZ cs + countNZ ds - 1 := by
  induction cs, ds using settleLoop.induct with
  | case1 ds =>
    intro _ _
    simp [settleLoop_nil_left]
  | case2 e cs =>
    intro _ _
    simp [settleLoop_nil_right]
  | case3 c cs d db ds ih =>
    intro hcs hds
    rw [settleLoop_del_c, countNZ_cons_zero c cs rfl]
    exact ih (fun e he => hcs e (List.mem_cons_of_mem _ he)) hds
  | case4 c cb cs d ds hc ih =>
    intro hcs hds
    rw [settleLoop_del_d c d cb cs ds hc, countNZ_cons_zero d ds rfl]
    exact ih hcs (fun e he => hds e (List.mem_cons_of_mem _ he))
  | case5 c cb cs d db ds hc hd ih =>
    intro hcs hds
    have hmc : min cb db ≤ cb := min_le_left cb db
    have hmd : min cb db ≤ db := min_le_right cb db
    have hcs' : ∀ e ∈ (c, cb - min cb db) :: cs, 0 ≤ e.2 := by
      intro e he
      rcases List.mem_cons.mp he with rfl | he'
      · exact sub_nonneg.mpr hmc
      · exact hcs e (List.mem_cons_of_mem _ he')
    have hds' : ∀ e ∈ (d, db - min cb db) :: ds, 0 ≤ e.2 := by
      intro e he
      rcases List.mem_cons.mp he with rfl | he'
      · exact sub_nonneg.mpr hmd
      · exact hds e (List.mem_cons_of_mem _ he')
    have h1 := ih hcs' hds'
    rw [settleLoop_step c d cb db cs ds hc hd, countNZ_cons_ne c cs hc,
      countNZ_cons_ne d ds hd]
    simp only [List.length_cons]
    rcases le_total cb db with h | h
    · rw [countNZ_cons_zero c cs (by simp [min_eq_left h])] at h1
      have h2 := countNZ_cons_le d (db - min cb db) ds
      omega
    · rw [countNZ_cons_zero d ds (by simp [min_eq_right h])] at h1
      have h2 := countNZ_cons_le c (cb - min cb db) cs
      omega

theorem countNZ_creditors (b : Balances) : countNZ (creditors b) = (creditors b).length := by
  unfold countNZ
  rw [List.filter_eq_self.mpr]
  intro e he
  have := (List.mem_filter.mp he).2
  simp only [decide_eq_true_eq] at this ⊢
  exact ne_of_gt this

theorem countNZ_debtors (b : Balances) : countNZ (debtors b) = (debtors b).length := by
  unfold countNZ
  rw [List.filter_eq_self.mpr]
  intro e he
  obtain ⟨x, hx, hxe⟩ := List.mem_map.mp he
  have := (List.mem_filter.mp hx).2
  simp only [decide_eq_true_eq] at this ⊢
  rw [← hxe]
  simp only
  intro hzero
  rw [neg_eq_zero] at hzero
  exact absurd hzero (ne_of_lt this)

theorem length_creditors_debtors (b : Balances) :
    (creditors b).length + (debtors b).length = countNZ b := by
  unfold creditors debtors countNZ
  rw [List.length_map]
  induction b with
  | nil => simp
  | cons e t ih =>
    rcases lt_trichotomy e.2 0 with h | h | h
    · rw [List.filter_cons_of_neg (by simpa using not_lt.mpr h.le),
        List.filter_cons_of_pos (by simpa using h),
        List.filter_cons_of_pos (by simpa using ne_of_lt h)]
      simp only [List.length_cons]
      omega
    · rw [List.filter_cons_of_neg (by simp [h]),
        List.filter_cons_of_neg (by simp [h]),
        List.filter_cons_of_neg (by simp [h])]
      exact ih
    · rw [List.filter_cons_of_pos (by simpa using h),
        List.filter_cons_of_neg (by simpa using not_lt.mpr h.le),
        List.filter_cons_of_pos (by simpa using ne_of_gt h)]
      simp only [List.length_cons]
      omega

/-- C3: for a zero-sum balance mapping with at least one non-zero entry, the
greedy plan emits at most (number of people with non-zero balance) − 1
instructions, i.e. at most |creditors| + |debtors| − 1. -/
theorem settlement_plan_length_bound (b : Balances)
    (hnd : (b.map Prod.fst).Nodup) (hsum : sumValues b = 0) (hnz : ∃ e ∈ b, e.2 ≠ 0) :
    (print_settlement_plan b).length ≤ countNZ b - 1 ∧
    (print_settlement_plan b).length ≤ (creditors b).length + (debtors b).length - 1 := by
  have hb := settleLoop_length_bound (creditors b) (debtors b)
    (creditors_nonneg b) (debtors_nonneg b)
  rw [countNZ_creditors, countNZ_debtors] at hb
  refine ⟨?_, hb⟩
  rw [← length_creditors_debtors]
  exact hb

theorem settlement_plan_length_bound_witness :
    ((wBal.map Prod.fst).Nodup) ∧
    (sumValues wBal = 0) ∧
    (∃ e ∈ wBal, e.2 ≠ 0) ∧
    ((print_settlement_plan wBal).length ≤ countNZ wBal - 1 ∧
      (print_settlement_plan wBal).length ≤ (creditors wBal).length + (debtors wBal).length - 1) :=
  ⟨by decide, by norm_num [wBal, sumValues], ⟨(some "A", 5), by decide, by norm_num⟩,
    settlement_plan_length_bound wBal (by decide) (by norm_num [wBal, sumValues])
      ⟨(some "A", 5), by decide, by norm_num⟩⟩

/-! ## Emitted amounts are positive (C7) -/

theorem settleLoop_mem_pos (cs ds : Balances) :
    (∀ e ∈ cs, 0 ≤ e.2) → (∀ e ∈ ds, 0 ≤ e.2) →
    ∀ i ∈ settleLoop cs ds, 0 < i.2.2 := by
  induction cs, ds using settleLoop.induct with
  | case1 ds =>
    intro _ _ i hi
    rw [settleLoop_nil_left] at hi
    cases hi
  | case2 e cs =>
    intro _ _ i hi
    rw [settleLoop_nil_right] at hi
    cases hi
  | case3 c cs d db ds ih =>
    intro hcs hds i hi
    rw [settleLoop_del_c] at hi
    exact ih (fun e he => hcs e (List.mem_cons_of_mem _ he)) hds i hi
  | case4 c cb cs d ds hc ih =>
    intro hcs hds i hi
    rw [settleLoop_del_d c d cb cs ds hc] at hi
    exact ih hcs (fun e he => hds e (List.mem_cons_of_mem _ he)) i hi
  | case5 c cb cs d db ds hc hd ih =>
    intro hcs hds i hi
    have hcb : 0 < cb := lt_of_le_of_ne (hcs (c, cb) (List.mem_cons_self _ _)) (Ne.symm hc)
    have hdb : 0 < db := lt_of_le_of_ne (hds (d, db) (List.mem_cons_self _ _)) (Ne.symm hd)
    rw [settleLoop_step c d cb db cs ds hc hd] at hi
    rcases List.mem_cons.mp hi with rfl | hi'
    · exact lt_min hcb hdb
    · have hmc : min cb db ≤ cb := min_le_left cb db
      have hmd : min cb db ≤ db := min_le_right cb db
      refine ih ?_ ?_ i hi'
      · intro e he
        rcases List.mem_cons.mp he with rfl | he'
        · exact sub_nonneg.mpr hmc
        · exact hcs e (List.mem_cons_of_mem _ he')
      · intro e he
        rcases List.mem_cons.mp he with rfl | he'
        · exact sub_nonneg.mpr hmd
        · exact hds e (List.mem_cons_of_mem _ he')

/-- C7: every instruction emitted by `print_settlement_plan`, on any input
balance mapping, carries a strictly positive amount (both dict
comprehensions store strictly positive values, and an entry is removed once
its remaining value reaches `0`, before it can be named again). -/
theorem settlement_amounts_positive (b : Balances) (i : Settlement)
    (hi : i ∈ print_settlement_plan b) : 0 < i.2.2 :=
  settleLoop_mem_pos (creditors b) (debtors b) (creditors_nonneg b) (debtors_nonneg b) i hi

theorem settlement_amounts_positive_witness :
    ((some "B", some "A", (5 : ℚ)) ∈ print_settlement_plan wBal) ∧
    0 < ((some "B", some "A", (5 : ℚ)) : Settlement).2.2 := by
  have hplan : print_settlement_plan wBal = [(some "B", some "A", 5)] := by
    norm_num +decide [wBal, print_settlement_plan, creditors, debtors]
    repeat (rw [settleLoop]; norm_num)
    simp [settleLoop]
  have hmem : ((some "B", some "A", (5 : ℚ)) ∈ print_settlement_plan wBal) := by
    rw [hplan]
    exact List.mem_singleton.mpr rfl
  exact ⟨hmem, settlement_amounts_positive wBal (some "B", some "A", 5) hmem⟩

/-! ## Termination of the greedy loop (C8) -/

theorem settleFuel_exact (cs ds : Balances) :
    ∀ n : Nat, cs.length + ds.length + countNZ cs + countNZ ds ≤ n →
    settleFuel n cs ds = some (settleLoop cs ds) := by
  induction cs, ds using settleLoop.induct with
  | case1 ds =>
    intro n h
    rw [settleLoop_nil_left]
    simp [settleFuel]
  | case2 e cs =>
    intro n h
    rw [settleLoop_nil_right]
    simp [settleFuel]
  | case3 c cs d db ds ih =>
    intro n h
    match n with
    | 0 =>
      exfalso
      simp only [List.length_cons] at h
      omega
    | m + 1 =>
      rw [settleLoop_del_c]
      have hm : cs.length + ((d, db) :: ds).length + countNZ cs + countNZ ((d, db) :: ds) ≤ m := by
        rw [countNZ_cons_zero c cs rfl] at h
        simp only [List.length_cons] at h ⊢
        omega
      rw [show settleFuel (m + 1) ((c, 0) :: cs) ((d, db) :: ds)
          = settleFuel m cs ((d, db) :: ds) from by simp [settleFuel]]
      exact ih m hm
  | case4 c cb cs d ds hc ih =>
    intro n h
    match n with
    | 0 =>
      exfalso
      simp only [List.length_cons] at h
      omega
    | m + 1 =>
      rw [settleLoop_del_d c d cb cs ds hc]
      have hm : ((c, cb) :: cs).length + ds.length + countNZ ((c, cb) :: cs) + countNZ ds ≤ m := by
        rw [countNZ_cons_zero d ds rfl] at h
        simp only [List.length_cons] at h ⊢
        omega
      rw [show settleFuel (m + 1) ((c, cb) :: cs) ((d, 0) :: ds)
          = settleFuel m ((c, cb) :: cs) ds from by simp [settleFuel, hc]]
      exact ih m hm
  | case5 c cb cs d db ds hc hd ih =>
    intro n h
    match n with
    | 0 =>
      exfalso
      simp only [List.length_cons] at h
      omega
    | m + 1 =>
      have hm : ((c, cb - min cb db) :: cs).length + ((d, db - min cb db) :: ds).length +
          countNZ ((c, cb - min cb db) :: cs) + countNZ ((d, db - min cb db) :: ds) ≤ m := by
        rw [countNZ_cons_ne c cs hc, countNZ_cons_ne d ds hd] at h
        simp only [List.length_cons] at h ⊢
        rcases le_total cb db with hle | hle
        · rw [countNZ_cons_zero c cs (by simp [min_eq_left hle])]
          have h2 := countNZ_cons_le d (db - min cb db) ds
          omega
        · rw [countNZ_cons_zero d ds (by simp [min_eq_right hle])]
          have h2 := countNZ_cons_le c (cb - min cb db) cs
          omega
      rw [settleLoop_step c d cb db cs ds hc hd,
        show settleFuel (m + 1) ((c, cb) :: cs) ((d, db) :: ds)
          = (settleFuel m ((c, cb - min cb db) :: cs) ((d, db - min cb db) :: ds)).map
              (fun s => (d, c, min cb db) :: s) from by simp [settleFuel, hc, hd],
        ih m hm]
      rfl

/-- C8: the greedy loop of `print_settlement_plan` terminates on every
finite balance mapping — no zero-sum assumption, so mappings whose creditor
and debtor sums differ are covered — within
`|creditors| + |debtors| + countNZ creditors + countNZ debtors` iterations:
every iteration either deletes one entry or zeroes the smaller of the two
selected entries. -/
theorem greedy_loop_terminates (b : Balances) (n : Nat)
    (h : (creditors b).length + (debtors b).length +
      countNZ (creditors b) + countNZ (debtors b) ≤ n) :
    settleFuel n (creditors b) (debtors b) = some (print_settlement_plan b) :=
  settleFuel_exact (creditors b) (debtors b) n h

/-- A balance mapping whose creditor sum (5) differs from its debtor sum (2). -/
def wBalUneq : Balances := [(some "A", 5), (some "B", -2)]

theorem greedy_loop_terminates_witness :
    ((creditors wBalUneq).length + (debtors wBalUneq).length +
      countNZ (creditors wBalUneq) + countNZ (debtors wBalUneq) ≤ 4) ∧
    settleFuel 4 (creditors wBalUneq) (debtors wBalUneq) =
      some (print_settlement_plan wBalUneq) :=
  ⟨by decide, greedy_loop_terminates wBalUneq 4 (by decide)⟩
